import Mathlib

/-!
# Verification of the best-chain selector (`bestchain.cpp`)

Shallow embedding of the chain-selection program: a store of block headers,
tip finding (`findChainTips`), memoized cumulative-work accumulation
(`determineWork`), best-chain selection (`findBest`), and the 36-byte output
record encoding of `main`'s emit loop.

Modelling conventions:
* 256-bit hashes (`hash256_t`) are abstracted as natural numbers; only
  equality of hashes is ever used by the program.
* `size_t` / `uint32_t` arithmetic is modelled with unbounded naturals: every
  quantity the program computes is a sum of 32-bit weights over at most
  `store.length` blocks, so the model and the machine agree for any store of
  fewer than `2 ^ 32` blocks.
* The `HMap` container (declared in `hvectors.hpp`, which is not part of the
  sources) is modelled from the spec, section 4.1: a mapping represented as a
  list of entries, `lookup` returning the entry with the matching key, and
  iteration in the list's (stable) order.
* The unbounded `while (true)` walks of `determineWork` and `findBest` are
  given an explicit fuel; `none` models a walk that did not finish within the
  fuel.  `store.length + 1` units of fuel are proved sufficient whenever the
  parent relation is acyclic.
-/

namespace BestChain

/-- A block header as kept by the program: `struct Block` of `bestchain.cpp`
(`hash`, `prevBlockHash`, `bits`).  Hashes are abstracted as naturals. -/
structure Block where
  hash : Nat
  prevBlockHash : Nat
  bits : Nat
deriving DecidableEq, Repr

/-- `Block()` — the default-constructed block: both hashes zero-initialized
(`hash256_t hash = {}`).  The C++ default constructor leaves `bits`
uninitialized; here it is pinned to `0`.  The degenerate results stated with
`defaultBlock` depend only on its hash fields; where the indeterminacy of
`bits` matters (the weight sum of a degenerate chain, claim C3), the
garbage value is made an explicit parameter instead — see `findBestG`. -/
def defaultBlock : Block := ⟨0, 0, 0⟩

/-- Modelled from the spec: `BlockStore.lookup` (`HMap::find` in the code,
`hvectors.hpp` is not in the sources) — the stored block with identity `h`,
or `none`. -/
def findBlock (store : List Block) (h : Nat) : Option Block :=
  store.find? (fun b => b.hash == h)

/-- One parent-link step: the stored parent of `b`, as looked up by the walks
(`blocks.find(visitor.prevBlockHash)`). -/
def parentOf (store : List Block) (b : Block) : Option Block :=
  findBlock store b.prevBlockHash

/-- `n`-fold iteration of `parentOf`, `none` once the walk has left the
store.  `parentIter store n b = some a` means `a` is reached from `b` in
exactly `n` parent steps. -/
def parentIter (store : List Block) : Nat → Block → Option Block
  | 0, b => some b
  | n + 1, b => (parentOf store b).bind (parentIter store n)

/-- The store's parent relation is acyclic: no stored block is its own
transitive ancestor.  The cycle length is bounded by `store.length` — a
deterministic parent walk that returns to its start does so within the
number of stored blocks — which keeps the predicate decidable. -/
def Acyclic (store : List Block) : Prop :=
  ∀ b ∈ store, ∀ n < store.length, parentIter store (n + 1) b ≠ some b

instance (store : List Block) : Decidable (Acyclic store) := by
  unfold Acyclic; infer_instance

/-- `findChainTips` of `bestchain.cpp`: first pass records every
`prevBlockHash` whose target exists in the store (the `parents` map, used as
a set); second pass keeps the blocks whose own hash was never recorded. -/
def findChainTips (store : List Block) : List Block :=
  let parents := store.foldl
    (fun acc b =>
      if (findBlock store b.prevBlockHash).isSome then b.prevBlockHash :: acc
      else acc) ([] : List Nat)
  store.filter (fun b => !(decide (b.hash ∈ parents)))

/-- The loop body of `determineWork`: walk parent links from `visitor`
carrying the running `totalWork`; stop with the total when the parent is
absent, short-circuit on a `workCache` hit.  `fuel` bounds the number of
iterations of the C++ `while (true)`; `none` models running out (the real
loop not terminating within the fuel). -/
def dwGo (workCache : List (Nat × Nat)) (blocks : List Block) :
    Nat → Block → Nat → Option Nat
  | 0, _, _ => none
  | fuel + 1, visitor, totalWork =>
    match findBlock blocks visitor.prevBlockHash with
    | none => some totalWork
    | some prevBlock =>
      match workCache.find? (fun e => e.1 == visitor.prevBlockHash) with
      | some e => some (totalWork + e.2)
      | none => dwGo workCache blocks fuel prevBlock (totalWork + prevBlock.bits)

/-- `determineWork` of `bestchain.cpp`: total accumulated work of `source`,
starting from `source.bits` and walking the ancestry (with memo
short-circuit), bounded by `fuel`. -/
def determineWork (workCache : List (Nat × Nat)) (blocks : List Block)
    (source : Block) (fuel : Nat) : Option Nat :=
  dwGo workCache blocks fuel source source.bits

/-- The list of ancestors of `b` reachable through the store, nearest first,
cut off at `fuel` steps.  This is the (memo-free) walk of the code's loops,
used to state what the walks compute. -/
def ancestors (store : List Block) : Nat → Block → List Block
  | 0, _ => []
  | fuel + 1, b =>
    match parentOf store b with
    | none => []
    | some p => p :: ancestors store fuel p

/-- True cumulative work of a block: its own weight plus the weights along
its ancestor chain.  Fuel `store.length` suffices for every acyclic store
(proved below), making this the root-to-`b` weight sum. -/
def cumWork (store : List Block) (b : Block) : Nat :=
  b.bits + ((ancestors store store.length b).map Block.bits).sum

/-- The memo invariant of the spec: every cached value is the true
root-inclusive cumulative work of the block stored under that key. -/
def memoOK (memo : List (Nat × Nat)) (store : List Block) : Prop :=
  ∀ kv ∈ memo, ∀ blk ∈ store, findBlock store kv.1 = some blk →
    kv.2 = cumWork store blk

instance (memo : List (Nat × Nat)) (store : List Block) :
    Decidable (memoOK memo store) := by
  unfold memoOK; infer_instance

/-- The selection loop of `findBest`: iterate the store in order, compute
each block's work (fuel `store.length + 1`), memoize it, and keep the block
with strictly greatest work (`work > mostWork`, so the first encountered
wins ties).  Returns the final `(bestBlock, mostWork, workCache)`; `none`
models a `determineWork` walk that did not terminate.  The `workCache`
insert (`HMap::insort`) is modelled as consing the new entry, which has the
same lookup semantics for the distinct keys inserted here. -/
def bestLoop (store : List Block) :
    List Block → Block → Nat → List (Nat × Nat) →
      Option (Block × Nat × List (Nat × Nat))
  | [], bestBlock, mostWork, workCache => some (bestBlock, mostWork, workCache)
  | block :: rest, bestBlock, mostWork, workCache =>
    match determineWork workCache store block (store.length + 1) with
    | none => none
    | some work =>
      if mostWork < work then
        bestLoop store rest block work ((block.hash, work) :: workCache)
      else
        bestLoop store rest bestBlock mostWork ((block.hash, work) :: workCache)

/-- Proof-side restatement of the selection fold: the `(bestBlock, mostWork)`
pair the loop reaches, with each block's work taken to be its true
cumulative work (which is what `determineWork` returns under the memo
invariant).  Used only to analyse `bestLoop`. -/
def pickBest (store : List Block) : List Block → Block → Nat → Block × Nat
  | [], best, most => (best, most)
  | b :: rest, best, most =>
    if most < cumWork store b then pickBest store rest b (cumWork store b)
    else pickBest store rest best most

/-- The chain materialized by `findBest` for a winning block: the winner,
then its ancestors walked to the root, reversed into root-first order
(`std::reverse` in the code). -/
def chainOf (store : List Block) (best : Block) : List Block :=
  (best :: ancestors store store.length best).reverse

/-- The winning block chosen by `findBest`'s selection loop. -/
def selectWinner (store : List Block) : Option Block :=
  match bestLoop store store defaultBlock 0 [] with
  | none => none
  | some t => some t.1

/-- `findBest` of `bestchain.cpp`: run the selection loop starting from the
default-constructed block and `mostWork = 0`, then walk the winner back to
its root and reverse.  `none` models a non-terminating work walk. -/
def findBest (store : List Block) : Option (List Block) :=
  match bestLoop store store defaultBlock 0 [] with
  | none => none
  | some t => some (chainOf store t.1)

/-- `findBest` with the uninitialized `bits` of the default-constructed
initial candidate (`auto bestBlock = Block()`) modelled faithfully as an
arbitrary `garbage` value rather than pinned to `0`.  The program
guarantees a property only if it holds for every `garbage`; `findBest`
itself is the `garbage = 0` instance. -/
def findBestG (garbage : Nat) (store : List Block) : Option (List Block) :=
  match bestLoop store store ⟨0, 0, garbage⟩ 0 [] with
  | none => none
  | some t => some (chainOf store t.1)

/-! ## The emit loop of `main` (output records) -/

/-- Little-endian byte decomposition of `n`, `w` bytes wide. -/
def natToBytesLE : Nat → Nat → List Nat
  | 0, _ => []
  | w + 1, n => n % 256 :: natToBytesLE w (n / 256)

/-- The `(identity, height)` pairs `main` builds from the best chain:
heights `0, 1, 2, …` in root-to-tip order (`blockChainMap`). -/
def chainHeights (chain : List Block) : List (Nat × Nat) :=
  chain.enum.map (fun p => (p.2.hash, p.1))

/-- Modelled from the spec: `HMap::sort` (`hvectors.hpp` is not in the
sources) — re-sort the `(identity, height)` records by identity (insertion
sort, stable). -/
def insortPair (kv : Nat × Nat) : List (Nat × Nat) → List (Nat × Nat)
  | [] => [kv]
  | x :: xs => if kv.1 ≤ x.1 then kv :: x :: xs else x :: insortPair kv xs

/-- Modelled from the spec: sorting the chain map by identity. -/
def sortPairs (l : List (Nat × Nat)) : List (Nat × Nat) :=
  l.foldr insortPair []

/-- One iteration of the emit loop as the code writes it, acting on the
36-byte stack buffer `sbuf` and the records written so far.  The code's
`memcpy(blockIter.first.begin(), sbuf, 32)` copies FROM `sbuf` INTO the
stored hash (destination first in `memcpy`), so `sbuf[0..32)` is never
written; only `sbuf[32..36)` receives the height (`Slice::put`, modelled
from the spec as 4-byte little-endian), and the whole `sbuf` is emitted. -/
def emitStep (st : List Nat × List (List Nat)) (kv : Nat × Nat) :
    List Nat × List (List Nat) :=
  let sbuf := st.1.take 32 ++ natToBytesLE 4 kv.2
  (sbuf, st.2 ++ [sbuf])

/-- The emit loop of `main` over the sorted `(identity, height)` records;
`sbuf0` is the initial content of the uninitialized stack buffer
`uint8_t sbuf[36]`. -/
def emitRecords (sbuf0 : List Nat) (entries : List (Nat × Nat)) :
    List (List Nat) :=
  (entries.foldl emitStep (sbuf0, [])).2

/-- The full output stage of `main` on a best chain, as the code executes
it. -/
def outputOf (sbuf0 : List Nat) (chain : List Block) : List (List Nat) :=
  emitRecords sbuf0 (sortPairs (chainHeights chain))

/-- Modelled from the spec: the documented output — per record, 32 bytes of
identity followed by the 4-byte little-endian height. -/
def outputSpec (chain : List Block) : List (List Nat) :=
  (sortPairs (chainHeights chain)).map
    (fun kv => natToBytesLE 32 kv.1 ++ natToBytesLE 4 kv.2)

/-! ## Basic lemmas about store lookup -/

theorem findBlock_eq_some (store : List Block) (h : Nat) (b : Block)
    (hf : findBlock store h = some b) : b.hash = h ∧ b ∈ store := by
  refine ⟨?_, List.mem_of_find?_eq_some hf⟩
  have := List.find?_some hf
  simpa using this

theorem findBlock_isSome_iff (store : List Block) (h : Nat) :
    (findBlock store h).isSome ↔ ∃ x ∈ store, x.hash = h := by
  unfold findBlock
  rw [List.find?_isSome]
  simp

/-- In a store with pairwise-distinct identities, looking up a member's hash
returns that member. -/
theorem findBlock_of_nodup (store : List Block)
    (hN : (store.map Block.hash).Nodup) (b : Block) (hb : b ∈ store) :
    findBlock store b.hash = some b := by
  induction store with
  | nil => cases hb
  | cons a l ih =>
    rw [List.map_cons, List.nodup_cons] at hN
    rcases List.mem_cons.mp hb with rfl | hbl
    · unfold findBlock
      rw [List.find?_cons_of_pos]
      simp
    · have hne : (a.hash == b.hash) = false := by
        apply beq_false_of_ne
        intro hcontra
        exact hN.1 (hcontra ▸ List.mem_map_of_mem Block.hash hbl)
      unfold findBlock at ih ⊢
      rw [List.find?_cons_of_neg _ (by simp [hne])]
      exact ih hN.2 hbl

/-! ## Lemmas about `findChainTips` -/

theorem mem_parents_foldl (store : List Block) (l : List Block)
    (acc : List Nat) (h : Nat) :
    h ∈ l.foldl
        (fun acc b =>
          if (findBlock store b.prevBlockHash).isSome then b.prevBlockHash :: acc
          else acc) acc ↔
      h ∈ acc ∨ ∃ c ∈ l, c.prevBlockHash = h ∧
        (findBlock store c.prevBlockHash).isSome := by
  induction l generalizing acc with
  | nil => simp
  | cons b l ih =>
    rw [List.foldl_cons]
    by_cases hb : (findBlock store b.prevBlockHash).isSome
    · rw [if_pos hb, ih]
      simp only [List.mem_cons, List.mem_cons]
      constructor
      · rintro ((rfl | ha) | ⟨c, hc, hch, hcs⟩)
        · exact Or.inr ⟨b, Or.inl rfl, rfl, hb⟩
        · exact Or.inl ha
        · exact Or.inr ⟨c, Or.inr hc, hch, hcs⟩
      · rintro (ha | ⟨c, (rfl | hc), hch, hcs⟩)
        · exact Or.inl (Or.inr ha)
        · exact Or.inl (Or.inl hch.symm)
        · exact Or.inr ⟨c, hc, hch, hcs⟩
    · rw [if_neg hb, ih]
      simp only [List.mem_cons]
      constructor
      · rintro (ha | ⟨c, hc, hch, hcs⟩)
        · exact Or.inl ha
        · exact Or.inr ⟨c, Or.inr hc, hch, hcs⟩
      · rintro (ha | ⟨c, (rfl | hc), hch, hcs⟩)
        · exact Or.inl ha
        · exact absurd hcs hb
        · exact Or.inr ⟨c, hc, hch, hcs⟩

/-- Claim C7.  A block is returned by `findChainTips` exactly when it is in
the store and its identity is not in the has-children set: no stored block
`c` has `c.prevBlockHash` equal to it while it is a key of the store. -/
theorem findChainTips_mem_iff (store : List Block) (b : Block) :
    b ∈ findChainTips store ↔
      b ∈ store ∧
        ¬∃ c ∈ store, c.prevBlockHash = b.hash ∧ ∃ x ∈ store, x.hash = b.hash := by
  unfold findChainTips
  rw [List.mem_filter]
  have hpar := mem_parents_foldl store store [] b.hash
  simp only [List.not_mem_nil, false_or] at hpar
  constructor
  · rintro ⟨hb, hdec⟩
    refine ⟨hb, ?_⟩
    rintro ⟨c, hc, hch, x, hx, hxh⟩
    have : b.hash ∈ store.foldl
        (fun acc b =>
          if (findBlock store b.prevBlockHash).isSome then b.prevBlockHash :: acc
          else acc) [] := by
      refine hpar.mpr ⟨c, hc, hch, ?_⟩
      rw [hch, findBlock_isSome_iff]
      exact ⟨x, hx, hxh⟩
    simp [this] at hdec
  · rintro ⟨hb, hno⟩
    refine ⟨hb, ?_⟩
    simp only [Bool.not_eq_true', decide_eq_false_iff_not]
    intro hmem
    rcases hpar.mp hmem with ⟨c, hc, hch, hcs⟩
    rw [hch, findBlock_isSome_iff] at hcs
    rcases hcs with ⟨x, hx, hxh⟩
    exact hno ⟨c, hc, hch, x, hx, hxh⟩

/-- Claim C10.  `findChainTips` is a total, fuel-free computation in this
embedding — two folds over the store, each consulting only one-step parent
lookups — so it terminates on every finite store; its result is a sublist of
the store, and it evaluates even on a store whose parent references form
cycles (here: two self-referencing blocks). -/
theorem findChainTips_total_and_bounded :
    (∀ store : List Block, (findChainTips store).Sublist store) ∧
      findChainTips [⟨1, 1, 0⟩, ⟨2, 2, 0⟩] = [] := by
  constructor
  · intro store
    exact List.filter_sublist store
  · decide

/-! ## The parent walk: composition and the acyclicity bound -/

theorem parentIter_add (store : List Block) (m n : Nat) (b : Block) :
    parentIter store (m + n) b = (parentIter store m b).bind (parentIter store n) := by
  induction m generalizing b with
  | zero => simp [parentIter]
  | succ m ih =>
    rw [Nat.succ_add]
    show (parentOf store b).bind (parentIter store (m + n)) = _
    cases hp : parentOf store b with
    | none => simp [parentIter, hp]
    | some p => simp [parentIter, hp, ih]

theorem parentIter_one (store : List Block) (b : Block) :
    parentIter store 1 b = parentOf store b := by
  cases hp : parentOf store b <;> simp [parentIter, hp]

theorem parentIter_succ_last (store : List Block) (n : Nat) (b : Block) :
    parentIter store (n + 1) b = (parentIter store n b).bind (parentOf store) := by
  rw [parentIter_add store n 1 b]
  cases parentIter store n b with
  | none => rfl
  | some v => simp [parentIter_one]

theorem mem_of_parentIter (store : List Block) (n : Nat) (b c : Block)
    (h : parentIter store (n + 1) b = some c) : c ∈ store := by
  rw [parentIter_succ_last] at h
  cases hv : parentIter store n b with
  | none => rw [hv] at h; cases h
  | some v =>
    rw [hv] at h
    simp only [Option.some_bind] at h
    exact (findBlock_eq_some store v.prevBlockHash c h).2

theorem parentIter_isSome_of_le (store : List Block) (m n : Nat) (b : Block)
    (hmn : m ≤ n) (h : (parentIter store n b).isSome) :
    (parentIter store m b).isSome := by
  rcases Nat.exists_eq_add_of_le hmn with ⟨k, rfl⟩
  rw [parentIter_add] at h
  cases hm : parentIter store m b with
  | none => rw [hm] at h; cases h
  | some v => simp

/-- The acyclicity bound: in an acyclic store every parent walk falls off the
store within `store.length` steps.  Proof: were `store.length + 1` steps all
defined, two of the visited blocks would coincide (pigeonhole over the
store), giving a stored block that is its own transitive ancestor. -/
theorem parentIter_length_eq_none (store : List Block) (hA : Acyclic store)
    (b : Block) : parentIter store (store.length + 1) b = none := by
  by_contra hne
  rcases Option.ne_none_iff_exists'.mp hne with ⟨c, hc⟩
  have hN : store ≠ [] := by
    rintro rfl
    have h1 : (parentIter ([] : List Block) 1 b).isSome :=
      parentIter_isSome_of_le [] 1 (List.length [] + 1) b (by simp) (by rw [hc]; rfl)
    rw [parentIter_one] at h1
    simp [parentOf, findBlock] at h1
  have hNpos : 0 < store.length := List.length_pos.mpr hN
  have hsome : ∀ k ≤ store.length, (parentIter store (k + 1) b).isSome := by
    intro k hk
    exact parentIter_isSome_of_le store (k + 1) (store.length + 1) b
      (by omega) (by rw [hc]; rfl)
  set g : Nat → Block := fun k => (parentIter store (k + 1) b).getD defaultBlock with hg
  have hgval : ∀ k ≤ store.length, parentIter store (k + 1) b = some (g k) := by
    intro k hk
    rcases Option.isSome_iff_exists.mp (hsome k hk) with ⟨v, hv⟩
    rw [hg]; simp [hv]
  have hmaps : ∀ k ∈ Finset.range (store.length + 1), g k ∈ store.toFinset := by
    intro k hk
    rw [Finset.mem_range] at hk
    have hv := hgval k (by omega)
    rw [List.mem_toFinset]
    exact mem_of_parentIter store k b (g k) hv
  have hcard : store.toFinset.card < (Finset.range (store.length + 1)).card := by
    rw [Finset.card_range]
    exact Nat.lt_succ_of_le (List.toFinset_card_le store)
  rcases Finset.exists_ne_map_eq_of_card_lt_of_maps_to hcard hmaps with
    ⟨i, hi, j, hj, hij, hgij⟩
  rw [Finset.mem_range] at hi hj
  have key : ∀ i j : Nat, i < j → j ≤ store.length → g i = g j → False := by
    intro i j hlt hjle heq
    have hi' := hgval i (by omega)
    have hj' := hgval j (by omega)
    have hsplit : parentIter store (j + 1) b =
        (parentIter store (i + 1) b).bind (parentIter store (j - i)) := by
      rw [← parentIter_add]
      congr 1
      omega
    rw [hi', hj'] at hsplit
    simp only [Option.some_bind] at hsplit
    have hcyc : parentIter store (j - i) (g i) = some (g i) := by
      rw [← hsplit, heq]
    have hmem : g i ∈ store := mem_of_parentIter store i b (g i) hi'
    have hji : j - i = (j - i - 1) + 1 := by omega
    rw [hji] at hcyc
    exact hA (g i) hmem (j - i - 1) (by omega) hcyc
  rcases Nat.lt_or_ge i j with hlt | hge
  · exact key i j hlt (by omega) hgij
  · have : j < i := by omega
    exact key j i this (by omega) hgij.symm

/-! ## The ancestor list -/

theorem ancestors_parent_none (store : List Block) (f : Nat) (b : Block)
    (hp : parentOf store b = none) : ancestors store f b = [] := by
  cases f <;> simp [ancestors, hp]

theorem ancestors_parent_some (store : List Block) (f : Nat) (b p : Block)
    (hp : parentOf store b = some p) :
    ancestors store (f + 1) b = p :: ancestors store f p := by
  simp [ancestors, hp]

theorem ancestors_length_le (store : List Block) :
    ∀ (f : Nat) (b : Block), (ancestors store f b).length ≤ f := by
  intro f
  induction f with
  | zero => intro b; simp [ancestors]
  | succ f ih =>
    intro b
    cases hp : parentOf store b with
    | none => rw [ancestors_parent_none store _ b hp]; simp
    | some p =>
      rw [ancestors_parent_some store f b p hp]
      simpa using ih p

/-- The ancestor walk is insensitive to the fuel once the fuel is enough for
the walk to reach a root. -/
theorem ancestors_eq_of_ends (store : List Block) :
    ∀ (f1 f2 : Nat) (b : Block), parentIter store (f1 + 1) b = none →
      parentIter store (f2 + 1) b = none →
      ancestors store f1 b = ancestors store f2 b := by
  intro f1
  induction f1 with
  | zero =>
    intro f2 b h1 _
    rw [parentIter_one] at h1
    rw [ancestors_parent_none store _ b h1, ancestors_parent_none store _ b h1]
  | succ f1 ih =>
    intro f2 b h1 h2
    cases hp : parentOf store b with
    | none =>
      rw [ancestors_parent_none store _ b hp, ancestors_parent_none store _ b hp]
    | some p =>
      cases f2 with
      | zero =>
        rw [parentIter_one, hp] at h2
        cases h2
      | succ f2 =>
        have h1' : parentIter store (f1 + 1) p = none := by
          have : parentIter store (f1 + 1 + 1) b =
              (parentOf store b).bind (parentIter store (f1 + 1)) := rfl
          rw [this, hp, Option.some_bind] at h1
          exact h1
        have h2' : parentIter store (f2 + 1) p = none := by
          have : parentIter store (f2 + 1 + 1) b =
              (parentOf store b).bind (parentIter store (f2 + 1)) := rfl
          rw [this, hp, Option.some_bind] at h2
          exact h2
        rw [ancestors_parent_some store f1 b p hp,
          ancestors_parent_some store f2 b p hp, ih f2 p h1' h2']

/-- Membership in the ancestor list is exactly reachability by a positive
number of parent steps within the fuel. -/
theorem ancestors_mem_iff (store : List Block) :
    ∀ (f : Nat) (b a : Block),
      a ∈ ancestors store f b ↔ ∃ k < f, parentIter store (k + 1) b = some a := by
  intro f
  induction f with
  | zero => intro b a; simp [ancestors]
  | succ f ih =>
    intro b a
    cases hp : parentOf store b with
    | none =>
      rw [ancestors_parent_none store _ b hp]
      simp only [List.not_mem_nil, false_iff]
      rintro ⟨k, _, hit⟩
      have : parentIter store (k + 1) b =
          (parentOf store b).bind (parentIter store k) := rfl
      rw [this, hp] at hit
      cases hit
    | some p =>
      rw [ancestors_parent_some store f b p hp, List.mem_cons, ih p]
      have hstep : ∀ k, parentIter store (k + 1) b = parentIter store k p := by
        intro k
        have : parentIter store (k + 1) b =
            (parentOf store b).bind (parentIter store k) := rfl
        rw [this, hp, Option.some_bind]
      constructor
      · rintro (rfl | ⟨k, hk, hit⟩)
        · exact ⟨0, by omega, by rw [hstep 0]; rfl⟩
        · exact ⟨k + 1, by omega, by rw [hstep (k + 1)]; exact hit⟩
      · rintro ⟨k, hk, hit⟩
        rw [hstep k] at hit
        cases k with
        | zero =>
          left
          simpa [parentIter] using hit.symm
        | succ k =>
          right
          exact ⟨k, by omega, hit⟩

theorem ancestors_get? (store : List Block) :
    ∀ (f : Nat) (b : Block) (i : Nat), i < (ancestors store f b).length →
      (ancestors store f b).get? i = parentIter store (i + 1) b := by
  intro f
  induction f with
  | zero => intro b i hi; simp [ancestors] at hi
  | succ f ih =>
    intro b i hi
    cases hp : parentOf store b with
    | none => rw [ancestors_parent_none store _ b hp] at hi; simp at hi
    | some p =>
      rw [ancestors_parent_some store f b p hp] at hi ⊢
      have hstep : ∀ k, parentIter store (k + 1) b = parentIter store k p := by
        intro k
        have : parentIter store (k + 1) b =
            (parentOf store b).bind (parentIter store k) := rfl
        rw [this, hp, Option.some_bind]
      cases i with
      | zero => rw [hstep 0]; rfl
      | succ i =>
        rw [hstep (i + 1)]
        simp only [List.get?_cons_succ]
        exact ih p i (by simpa using hi)

/-- In an acyclic store the ancestor chain never revisits a block. -/
theorem ancestors_nodup (store : List Block) (hA : Acyclic store) (b : Block) :
    (ancestors store store.length b).Nodup := by
  rw [List.nodup_iff_injective_get]
  have key : ∀ i j : Nat, i < j → ∀ hi : i < (ancestors store store.length b).length,
      ∀ hj : j < (ancestors store store.length b).length,
      (ancestors store store.length b).get ⟨i, hi⟩ =
        (ancestors store store.length b).get ⟨j, hj⟩ → False := by
    intro i j hij hi hj heq
    have hgi : parentIter store (i + 1) b =
        some ((ancestors store store.length b).get ⟨i, hi⟩) := by
      rw [← ancestors_get? store store.length b i hi, List.get?_eq_get hi]
    have hgj : parentIter store (j + 1) b =
        some ((ancestors store store.length b).get ⟨j, hj⟩) := by
      rw [← ancestors_get? store store.length b j hj, List.get?_eq_get hj]
    rw [← heq] at hgj
    set v := (ancestors store store.length b).get ⟨i, hi⟩ with hv
    have hsplit : parentIter store (j + 1) b =
        (parentIter store (i + 1) b).bind (parentIter store (j - i)) := by
      rw [← parentIter_add]
      congr 1
      omega
    rw [hgi, hgj, Option.some_bind] at hsplit
    have hcyc : parentIter store (j - i) v = some v := hsplit.symm
    have hmem : v ∈ store := mem_of_parentIter store i b v hgi
    have hlen : j < store.length :=
      Nat.lt_of_lt_of_le hj (ancestors_length_le store store.length b)
    have hji : j - i = (j - i - 1) + 1 := by omega
    rw [hji] at hcyc
    exact hA v hmem (j - i - 1) (by omega) hcyc
  rintro ⟨i, hi⟩ ⟨j, hj⟩ heq
  rcases Nat.lt_trichotomy i j with hij | hij | hij
  · exact absurd heq (fun h => key i j hij hi hj h)
  · exact Fin.ext hij
  · exact absurd heq (fun h => key j i hij hj hi h.symm)

/-! ## `determineWork`: termination and exactness -/

theorem dwGo_isSome (store : List Block) (memo : List (Nat × Nat)) :
    ∀ (n fuel : Nat) (v : Block) (t : Nat), parentIter store n v = none →
      n ≤ fuel → (dwGo memo store fuel v t).isSome := by
  intro n
  induction n with
  | zero => intro fuel v t h; simp [parentIter] at h
  | succ n ih =>
    intro fuel v t hend hle
    cases fuel with
    | zero => omega
    | succ f =>
      cases hp : findBlock store v.prevBlockHash with
      | none => simp [dwGo, hp]
      | some prev =>
        cases hmf : memo.find? (fun e => e.1 == v.prevBlockHash) with
        | some e => simp [dwGo, hp, hmf]
        | none =>
          have hend' : parentIter store n prev = none := by
            have : parentIter store (n + 1) v =
                (parentOf store v).bind (parentIter store n) := rfl
            rw [this] at hend
            have hp' : parentOf store v = some prev := hp
            rw [hp', Option.some_bind] at hend
            exact hend
          simp only [dwGo, hp, hmf]
          exact ih f prev (t + prev.bits) hend' (by omega)

/-- Exactness of the memoized walk: with an acyclic store and a correct
memo, `dwGo` returns its accumulator plus the weights of the visitor's
remaining ancestors. -/
theorem dwGo_correct (store : List Block) (hA : Acyclic store)
    (memo : List (Nat × Nat)) (hm : memoOK memo store) :
    ∀ (n fuel : Nat) (v : Block) (t : Nat), parentIter store n v = none →
      n ≤ fuel →
      dwGo memo store fuel v t =
        some (t + ((ancestors store store.length v).map Block.bits).sum) := by
  intro n
  induction n with
  | zero => intro fuel v t h; simp [parentIter] at h
  | succ n ih =>
    intro fuel v t hend hle
    cases fuel with
    | zero => omega
    | succ f =>
      cases hp : findBlock store v.prevBlockHash with
      | none =>
        have hanc : ancestors store store.length v = [] :=
          ancestors_parent_none store _ v hp
        simp [dwGo, hp, hanc]
      | some prev =>
        have hp' : parentOf store v = some prev := hp
        have hprevmem : prev ∈ store := (findBlock_eq_some store _ prev hp).2
        have hNpos : 0 < store.length := List.length_pos.mpr
          (by rintro rfl; cases hprevmem)
        have hK : store.length = (store.length - 1) + 1 := by omega
        have hend' : parentIter store n prev = none := by
          have : parentIter store (n + 1) v =
              (parentOf store v).bind (parentIter store n) := rfl
          rw [this, hp', Option.some_bind] at hend
          exact hend
        have hanc : ancestors store store.length v =
            prev :: ancestors store (store.length - 1) prev := by
          conv_lhs => rw [hK]
          rw [ancestors_parent_some store (store.length - 1) v prev hp']
        have hprevend : parentIter store ((store.length - 1) + 1) prev = none := by
          rw [← hK]
          have hall := parentIter_length_eq_none store hA v
          have : parentIter store (store.length + 1) v =
              (parentOf store v).bind (parentIter store store.length) := rfl
          rw [this, hp', Option.some_bind] at hall
          exact hall
        have hstab : ancestors store (store.length - 1) prev =
            ancestors store store.length prev :=
          ancestors_eq_of_ends store _ _ prev hprevend
            (parentIter_length_eq_none store hA prev)
        cases hmf : memo.find? (fun e => e.1 == v.prevBlockHash) with
        | some e =>
          have hkey : e.1 = v.prevBlockHash := by
            have := List.find?_some hmf
            simpa using this
          have hval : e.2 = cumWork store prev :=
            hm e (List.mem_of_find?_eq_some hmf) prev hprevmem (by rw [hkey]; exact hp)
          simp only [dwGo, hp, hmf]
          rw [hanc, hval]
          unfold cumWork
          rw [hstab]
          simp [Nat.add_assoc]
        | none =>
          simp only [dwGo, hp, hmf]
          rw [ih f prev (t + prev.bits) hend' (by omega), hanc, hstab]
          simp [Nat.add_assoc]

/-- Claim C9.  First part: on an acyclic store the work walk terminates for
every source block and every memo, with `store.length + 1` loop iterations
always sufficient.  Second part: if the source block is its own transitive
ancestor, the walk (run with no applicable memo entries, here the empty
memo) terminates under no fuel bound at all — the C++ loop runs forever. -/
theorem determineWork_termination (store : List Block) (source : Block) :
    (Acyclic store → ∀ (memo : List (Nat × Nat)) (fuel : Nat),
        store.length + 1 ≤ fuel →
        (determineWork memo store source fuel).isSome = true) ∧
      ((∃ n, parentIter store (n + 1) source = some source) →
        ∀ fuel, determineWork [] store source fuel = none) := by
  constructor
  · intro hA memo fuel hfuel
    exact dwGo_isSome store memo (store.length + 1) fuel source source.bits
      (parentIter_length_eq_none store hA source) hfuel
  · have main : ∀ (fuel : Nat) (v : Block) (t : Nat),
        (∃ n, parentIter store (n + 1) v = some v) →
        dwGo [] store fuel v t = none := by
      intro fuel
      induction fuel with
      | zero => intro v t _; rfl
      | succ f ih =>
        rintro v t ⟨n, hn⟩
        have hstep : parentIter store (n + 1) v =
            (parentOf store v).bind (parentIter store n) := rfl
        cases hp : parentOf store v with
        | none => rw [hstep, hp] at hn; cases hn
        | some p =>
          have hv : parentIter store n p = some v := by
            rw [hstep, hp, Option.some_bind] at hn
            exact hn
          have hrot : parentIter store (n + 1) p = some p := by
            rw [parentIter_succ_last, hv, Option.some_bind, hp]
          have hpf : findBlock store v.prevBlockHash = some p := hp
          simp only [dwGo, hpf, List.find?]
          exact ih p (t + p.bits) ⟨n, hrot⟩
    intro hcyc fuel
    exact main fuel source source.bits hcyc

/-- Witness for claim C9: a two-block acyclic store on which the walk
finishes within the proved bound, and a self-referencing block on which it
returns no result at any fuel. -/
theorem determineWork_termination_witness :
    (Acyclic [⟨1, 9, 4⟩, ⟨2, 1, 6⟩] ∧ 2 + 1 ≤ 3 ∧
        (determineWork [] [⟨1, 9, 4⟩, ⟨2, 1, 6⟩] ⟨2, 1, 6⟩ 3).isSome = true) ∧
      ((∃ n, parentIter [⟨1, 1, 0⟩] (n + 1) ⟨1, 1, 0⟩ = some ⟨1, 1, 0⟩) ∧
        determineWork [] [⟨1, 1, 0⟩] ⟨1, 1, 0⟩ 5 = none) := by
  constructor
  · exact ⟨by decide, by decide,
      (determineWork_termination [⟨1, 9, 4⟩, ⟨2, 1, 6⟩] ⟨2, 1, 6⟩).1
        (by decide) [] 3 (by decide)⟩
  · exact ⟨⟨0, by decide⟩,
      (determineWork_termination [⟨1, 1, 0⟩] ⟨1, 1, 0⟩).2 ⟨0, by decide⟩ 5⟩

/-- Claim C5.  On an acyclic store, for a stored source block and any memo
whose entries are true cumulative works, `determineWork` returns exactly
`source.bits` plus the sum of the weights of the source's ancestor chain —
and that chain has no repetitions and consists exactly of the transitive
ancestors of the source reachable through the store. -/
theorem determineWork_exact (store : List Block) (memo : List (Nat × Nat))
    (source : Block) (hA : Acyclic store) (hs : source ∈ store)
    (hm : memoOK memo store) :
    determineWork memo store source (store.length + 1) =
        some (source.bits +
          ((ancestors store store.length source).map Block.bits).sum) ∧
      (ancestors store store.length source).Nodup ∧
      ∀ a : Block, a ∈ ancestors store store.length source ↔
        ∃ k, parentIter store (k + 1) source = some a := by
  refine ⟨?_, ancestors_nodup store hA source, ?_⟩
  · exact dwGo_correct store hA memo hm (store.length + 1) (store.length + 1)
      source source.bits (parentIter_length_eq_none store hA source) le_rfl
  · intro a
    rw [ancestors_mem_iff]
    constructor
    · rintro ⟨k, _, hit⟩
      exact ⟨k, hit⟩
    · rintro ⟨k, hit⟩
      refine ⟨k, ?_, hit⟩
      by_contra hk
      push_neg at hk
      have hsome : (parentIter store (store.length + 1) source).isSome :=
        parentIter_isSome_of_le store (store.length + 1) (k + 1) source
          (by omega) (by rw [hit]; rfl)
      rw [parentIter_length_eq_none store hA source] at hsome
      cases hsome

/-- Witness for claim C5: a two-block chain with a memo entry for the parent
already in place. -/
theorem determineWork_exact_witness :
    (Acyclic [⟨1, 50, 7⟩, ⟨2, 1, 5⟩] ∧ (⟨2, 1, 5⟩ : Block) ∈ [⟨1, 50, 7⟩, ⟨2, 1, 5⟩] ∧
        memoOK [(1, 7)] [⟨1, 50, 7⟩, ⟨2, 1, 5⟩]) ∧
      determineWork [(1, 7)] [⟨1, 50, 7⟩, ⟨2, 1, 5⟩] ⟨2, 1, 5⟩ 3 =
        some (5 + (([⟨1, 50, 7⟩] : List Block).map Block.bits).sum) := by
  refine ⟨⟨by decide, by decide, by decide⟩, ?_⟩
  have h := determineWork_exact [⟨1, 50, 7⟩, ⟨2, 1, 5⟩] [(1, 7)] ⟨2, 1, 5⟩
    (by decide) (by decide) (by decide)
  have hanc : ancestors [⟨1, 50, 7⟩, ⟨2, 1, 5⟩] 2 ⟨2, 1, 5⟩ = [⟨1, 50, 7⟩] := by decide
  calc determineWork [(1, 7)] [⟨1, 50, 7⟩, ⟨2, 1, 5⟩] ⟨2, 1, 5⟩ 3
      = some ((5 : Nat) +
          ((ancestors [⟨1, 50, 7⟩, ⟨2, 1, 5⟩] 2 ⟨2, 1, 5⟩).map Block.bits).sum) := h.1
    _ = some (5 + (([⟨1, 50, 7⟩] : List Block).map Block.bits).sum) := by rw [hanc]

/-! ## Claim C2: empty store -/

/-- Counterexample to claim C2 as stated.  On the empty store, `findBest`
does not fail: it silently returns the degenerate one-element chain holding
the default-constructed block. -/
theorem findBest_empty_counterexample :
    findBest [] = some [defaultBlock] := by decide

/-- Claim C2, amended.  If the store is empty, `findBest` returns a normal
(`some`) result — a degenerate chain of length one containing the
default-constructed block — and signals no error of any kind. -/
theorem findBest_empty_degenerate :
    (findBest []).isSome = true ∧
      (findBest []).getD [] = [defaultBlock] ∧
      ((findBest []).getD []).length = 1 := by decide

/-! ## Claim C1: the emit loop -/

/-- Claim C1 fails on the code: in `main`'s emit loop the `memcpy` arguments
are swapped (`memcpy(blockIter.first.begin(), sbuf, 32)` copies from the
uninitialized stack buffer into the stored hash), so the first 32 bytes of
every emitted record are the buffer's indeterminate initial content, not the
block's identity.  Evaluated at a best chain of one block with identity `1`
and the buffer modelled as zero-filled: the emitted record differs from the
specified one, its identity field being 32 zero bytes. -/
theorem emit_identity_bytes_bug :
    outputOf (List.replicate 36 0) [⟨1, 0, 0⟩] ≠ outputSpec [⟨1, 0, 0⟩] ∧
      outputOf (List.replicate 36 0) [⟨1, 0, 0⟩] =
        [List.replicate 32 0 ++ [0, 0, 0, 0]] ∧
      outputSpec [⟨1, 0, 0⟩] =
        [natToBytesLE 32 1 ++ [0, 0, 0, 0]] := by decide

/-! ## The selection loop of `findBest` -/

theorem determineWork_eq_cumWork (store : List Block) (hA : Acyclic store)
    (memo : List (Nat × Nat)) (hm : memoOK memo store) (b : Block) :
    determineWork memo store b (store.length + 1) = some (cumWork store b) :=
  dwGo_correct store hA memo hm (store.length + 1) (store.length + 1) b b.bits
    (parentIter_length_eq_none store hA b) le_rfl

/-- With acyclicity alone the selection loop runs to completion (every work
walk finishes within its fuel). -/
theorem bestLoop_isSome (store : List Block) (hA : Acyclic store) :
    ∀ (l : List Block) (best : Block) (most : Nat) (cache : List (Nat × Nat)),
      ∃ out, bestLoop store l best most cache = some out := by
  intro l
  induction l with
  | nil => intro best most cache; exact ⟨(best, most, cache), rfl⟩
  | cons b l ih =>
    intro best most cache
    have hw : (determineWork cache store b (store.length + 1)).isSome :=
      dwGo_isSome store cache (store.length + 1) (store.length + 1) b b.bits
        (parentIter_length_eq_none store hA b) le_rfl
    rcases Option.isSome_iff_exists.mp hw with ⟨w, hw⟩
    by_cases hlt : most < w
    · rcases ih b w ((b.hash, w) :: cache) with ⟨out, hout⟩
      exact ⟨out, by simp only [bestLoop, hw]; rw [if_pos hlt]; exact hout⟩
    · rcases ih best most ((b.hash, w) :: cache) with ⟨out, hout⟩
      exact ⟨out, by simp only [bestLoop, hw]; rw [if_neg hlt]; exact hout⟩

/-- The selection loop computes `pickBest`: each iteration's work value is
the block's true cumulative work, and the memo invariant is maintained by
each insertion. -/
theorem bestLoop_eq_pickBest (store : List Block) (hA : Acyclic store)
    (hN : (store.map Block.hash).Nodup) :
    ∀ (l : List Block) (best : Block) (most : Nat) (cache : List (Nat × Nat)),
      (∀ x ∈ l, x ∈ store) → memoOK cache store →
      ∃ cache2, bestLoop store l best most cache =
        some ((pickBest store l best most).1, (pickBest store l best most).2,
          cache2) := by
  intro l
  induction l with
  | nil =>
    intro best most cache _ _
    exact ⟨cache, rfl⟩
  | cons b l ih =>
    intro best most cache hsub hm
    have hb : b ∈ store := hsub b (List.mem_cons_self b l)
    have hw : determineWork cache store b (store.length + 1) =
        some (cumWork store b) := determineWork_eq_cumWork store hA cache hm b
    have hm2 : memoOK ((b.hash, cumWork store b) :: cache) store := by
      intro kv hkv blk hblk hfind
      rcases List.mem_cons.mp hkv with rfl | hkv'
      · have hfb : findBlock store b.hash = some b := findBlock_of_nodup store hN b hb
        rw [hfb] at hfind
        cases hfind
        rfl
      · exact hm kv hkv' blk hblk hfind
    have hsub' : ∀ x ∈ l, x ∈ store := fun x hx => hsub x (List.mem_cons_of_mem b hx)
    by_cases hlt : most < cumWork store b
    · rcases ih b (cumWork store b) ((b.hash, cumWork store b) :: cache) hsub' hm2
        with ⟨cache2, hloop⟩
      refine ⟨cache2, ?_⟩
      simp only [bestLoop, hw, pickBest]
      rw [if_pos hlt, if_pos hlt]
      exact hloop
    · rcases ih best most ((b.hash, cumWork store b) :: cache) hsub' hm2
        with ⟨cache2, hloop⟩
      refine ⟨cache2, ?_⟩
      simp only [bestLoop, hw, pickBest]
      rw [if_neg hlt, if_neg hlt]
      exact hloop

theorem pickBest_skip (store : List Block) :
    ∀ (l : List Block) (best : Block) (most : Nat),
      (∀ x ∈ l, cumWork store x ≤ most) →
      pickBest store l best most = (best, most) := by
  intro l
  induction l with
  | nil => intro best most _; rfl
  | cons b l ih =>
    intro best most h
    have hble : cumWork store b ≤ most := h b (List.mem_cons_self b l)
    simp only [pickBest]
    rw [if_neg (Nat.not_lt.mpr hble)]
    exact ih best most (fun x hx => h x (List.mem_cons_of_mem b hx))

theorem pickBest_le (store : List Block) :
    ∀ (l : List Block) (best : Block) (most : Nat),
      most ≤ (pickBest store l best most).2 ∧
        ∀ x ∈ l, cumWork store x ≤ (pickBest store l best most).2 := by
  intro l
  induction l with
  | nil => intro best most; exact ⟨le_rfl, by simp⟩
  | cons b l ih =>
    intro best most
    simp only [pickBest]
    by_cases hlt : most < cumWork store b
    · rw [if_pos hlt]
      rcases ih b (cumWork store b) with ⟨hmost, hall⟩
      refine ⟨le_trans (le_of_lt hlt) hmost, ?_⟩
      intro x hx
      rcases List.mem_cons.mp hx with rfl | hx'
      · exact hmost
      · exact hall x hx'
    · rw [if_neg hlt]
      rcases ih best most with ⟨hmost, hall⟩
      refine ⟨hmost, ?_⟩
      intro x hx
      rcases List.mem_cons.mp hx with rfl | hx'
      · exact le_trans (Nat.not_lt.mp hlt) hmost
      · exact hall x hx'

theorem pickBest_cases (store : List Block) :
    ∀ (l : List Block) (best : Block) (most : Nat),
      pickBest store l best most = (best, most) ∨
        ((pickBest store l best most).1 ∈ l ∧
          (pickBest store l best most).2 =
            cumWork store (pickBest store l best most).1 ∧
          most < (pickBest store l best most).2) := by
  intro l
  induction l with
  | nil => intro best most; exact Or.inl rfl
  | cons b l ih =>
    intro best most
    simp only [pickBest]
    by_cases hlt : most < cumWork store b
    · rw [if_pos hlt]
      rcases ih b (cumWork store b) with heq | ⟨hmem, hval, hgt⟩
      · right
        rw [heq]
        exact ⟨List.mem_cons_self b l, rfl, hlt⟩
      · exact Or.inr ⟨List.mem_cons_of_mem b hmem, hval, lt_trans hlt hgt⟩
    · rw [if_neg hlt]
      rcases ih best most with heq | ⟨hmem, hval, hgt⟩
      · exact Or.inl heq
      · exact Or.inr ⟨List.mem_cons_of_mem b hmem, hval, hgt⟩

/-- Strict improvement plus "first encountered wins": once the running
`mostWork` is strictly below the work of `bstar`, every earlier block is
strictly worse and every later block no better, the fold ends exactly at
`bstar`. -/
theorem pickBest_first (store : List Block) (bstar : Block) :
    ∀ (pre suf : List Block) (best : Block) (most : Nat),
      (∀ x ∈ pre, cumWork store x < cumWork store bstar) →
      most < cumWork store bstar →
      (∀ x ∈ suf, cumWork store x ≤ cumWork store bstar) →
      pickBest store (pre ++ bstar :: suf) best most =
        (bstar, cumWork store bstar) := by
  intro pre
  induction pre with
  | nil =>
    intro suf best most _ hmost hsuf
    simp only [List.nil_append, pickBest]
    rw [if_pos hmost]
    exact pickBest_skip store suf bstar (cumWork store bstar) hsuf
  | cons x pre ih =>
    intro suf best most hpre hmost hsuf
    have hx : cumWork store x < cumWork store bstar :=
      hpre x (List.mem_cons_self x pre)
    have hpre' : ∀ y ∈ pre, cumWork store y < cumWork store bstar :=
      fun y hy => hpre y (List.mem_cons_of_mem x hy)
    simp only [List.cons_append, pickBest]
    by_cases hlt : most < cumWork store x
    · rw [if_pos hlt]
      exact ih suf x (cumWork store x) hpre' hx hsuf
    · rw [if_neg hlt]
      exact ih suf best most hpre' hmost hsuf

theorem chainOf_sum (store : List Block) (b : Block) :
    ((chainOf store b).map Block.bits).sum = cumWork store b := by
  unfold chainOf cumWork
  rw [List.map_reverse, List.sum_reverse]
  simp

theorem find?_decomp {α : Type} (p : α → Bool) :
    ∀ (l : List α) (a : α), l.find? p = some a →
      ∃ pre suf, l = pre ++ a :: suf ∧ ∀ x ∈ pre, p x = false := by
  intro l
  induction l with
  | nil => intro a h; cases h
  | cons x l ih =>
    intro a h
    cases hpx : p x with
    | true =>
      rw [List.find?_cons_of_pos l hpx] at h
      cases h
      exact ⟨[], l, rfl, by simp⟩
    | false =>
      rw [List.find?_cons_of_neg l (by simp [hpx])] at h
      rcases ih a h with ⟨pre, suf, rfl, hpre⟩
      refine ⟨x :: pre, suf, rfl, ?_⟩
      intro y hy
      rcases List.mem_cons.mp hy with rfl | hy'
      · exact hpx
      · exact hpre y hy'

theorem findBestG_zero (store : List Block) : findBestG 0 store = findBest store :=
  rfl

/-- Under the positivity proviso there is a first block of maximal
cumulative work, and the selection fold reaches exactly it from any initial
candidate — in particular independently of the default-constructed
candidate's indeterminate weight. -/
theorem exists_first_max (store : List Block)
    (hpos : ∃ b ∈ store, 0 < cumWork store b) :
    ∃ bstar ∈ store, 0 < cumWork store bstar ∧
      (∀ b ∈ store, cumWork store b ≤ cumWork store bstar) ∧
      ∀ init : Block, pickBest store store init 0 = (bstar, cumWork store bstar) := by
  obtain ⟨b0, hb0, hb0pos⟩ := hpos
  have hle := pickBest_le store store defaultBlock 0
  have hpb2pos : 0 < (pickBest store store defaultBlock 0).2 :=
    lt_of_lt_of_le hb0pos (hle.2 b0 hb0)
  rcases pickBest_cases store store defaultBlock 0 with heq | ⟨hmem, hval, _⟩
  · rw [heq] at hpb2pos
    cases hpb2pos
  · have hfind : ∃ bstar, store.find?
        (fun x => decide ((pickBest store store defaultBlock 0).2 ≤
          cumWork store x)) = some bstar := by
      apply Option.isSome_iff_exists.mp
      rw [List.find?_isSome]
      exact ⟨(pickBest store store defaultBlock 0).1, hmem,
        decide_eq_true (le_of_eq hval)⟩
    obtain ⟨bstar, hbfind⟩ := hfind
    obtain ⟨pre, suf, hsplit, hpre⟩ := find?_decomp _ store bstar hbfind
    have hbstar_mem : bstar ∈ store := List.mem_of_find?_eq_some hbfind
    have hstar_ge : (pickBest store store defaultBlock 0).2 ≤ cumWork store bstar := by
      have := List.find?_some hbfind
      simpa using this
    have hstar_eq : cumWork store bstar = (pickBest store store defaultBlock 0).2 :=
      le_antisymm (hle.2 bstar hbstar_mem) hstar_ge
    have hprelt : ∀ x ∈ pre, cumWork store x < cumWork store bstar := by
      intro x hx
      have hxmem : x ∈ store := by
        rw [hsplit]
        exact List.mem_append.mpr (Or.inl hx)
      have hxle := hle.2 x hxmem
      have hxne := hpre x hx
      simp only [decide_eq_false_iff_not, Nat.not_le] at hxne
      omega
    have hsufle : ∀ x ∈ suf, cumWork store x ≤ cumWork store bstar := by
      intro x hx
      have hxmem : x ∈ store := by
        rw [hsplit]
        exact List.mem_append.mpr (Or.inr (List.mem_cons_of_mem bstar hx))
      rw [hstar_eq]
      exact hle.2 x hxmem
    have h0lt : (0 : Nat) < cumWork store bstar := by rw [hstar_eq]; exact hpb2pos
    refine ⟨bstar, hbstar_mem, h0lt, ?_, ?_⟩
    · intro b hb
      rw [hstar_eq]
      exact hle.2 b hb
    · intro init
      nth_rewrite 2 [hsplit]
      exact pickBest_first store bstar pre suf init 0 hprelt h0lt hsufle

/-! ## Claim C3: the selected chain's weight is exact and maximal -/

/-- Counterexample to claim C3 as stated.  On the non-empty acyclic store
`[{hash 5, parent 9, weight 0}]` every total work is `0`, so the strict
comparison never fires and the returned chain is the default-constructed
block alone — whose C++ `bits` is uninitialized.  Modelling that
indeterminate value faithfully as a parameter (`findBestG`), taking it to
be `1`: the selected accumulated weight (`mostWork`) is `0` while the
returned chain's weight sum is `1`, so the claimed equality is not a
property the program guarantees. -/
theorem findBest_weight_counterexample :
    Acyclic [⟨5, 9, 0⟩] ∧ ([⟨5, 9, 0⟩] : List Block) ≠ [] ∧
      bestLoop [⟨5, 9, 0⟩] [⟨5, 9, 0⟩] ⟨0, 0, 1⟩ 0 [] =
        some (⟨0, 0, 1⟩, 0, [(5, 0)]) ∧
      findBestG 1 [⟨5, 9, 0⟩] = some [⟨0, 0, 1⟩] ∧
      (([⟨0, 0, 1⟩] : List Block).map Block.bits).sum ≠ 0 := by decide

/-- Claim C3, amended.  On a non-empty acyclic store with distinct
identities in which at least one block has positive total work, the
selection loop completes with a stored winner — for every value of the
default-constructed candidate's indeterminate weight — and the selected
`mostWork` equals the weight sum over exactly the blocks of the returned
chain, which is greater than or equal to the weight sum of every stored
block's root-to-tip walk.  If instead every total work is zero, the
returned chain is the default block alone and its indeterminate weight
breaks the equality (see the counterexample). -/
theorem findBest_weight_optimal (store : List Block) (hA : Acyclic store)
    (hN : (store.map Block.hash).Nodup) (hne : store ≠ [])
    (hpos : ∃ b ∈ store, 0 < cumWork store b) :
    ∃ (best : Block) (most : Nat), best ∈ store ∧
      (∀ garbage : Nat, ∃ cache,
        bestLoop store store ⟨0, 0, garbage⟩ 0 [] = some (best, most, cache) ∧
        findBestG garbage store = some (chainOf store best)) ∧
      most = ((chainOf store best).map Block.bits).sum ∧
      ∀ t ∈ store, ((chainOf store t).map Block.bits).sum ≤ most := by
  obtain ⟨bstar, hbmem, h0lt, hmax, hpickAll⟩ := exists_first_max store hpos
  refine ⟨bstar, cumWork store bstar, hbmem, ?_, (chainOf_sum store bstar).symm, ?_⟩
  · intro garbage
    obtain ⟨cache2, hbl⟩ := bestLoop_eq_pickBest store hA hN store
      ⟨0, 0, garbage⟩ 0 [] (fun x hx => hx) (by intro kv hkv; cases hkv)
    rw [hpickAll ⟨0, 0, garbage⟩] at hbl
    refine ⟨cache2, hbl, ?_⟩
    unfold findBestG
    rw [hbl]
  · intro t ht
    rw [chainOf_sum]
    exact hmax t ht

/-- Witness for claim C3 (amended): a two-block chain with positive
weights. -/
theorem findBest_weight_optimal_witness :
    (Acyclic [⟨1, 7, 2⟩, ⟨2, 1, 3⟩] ∧
        (([⟨1, 7, 2⟩, ⟨2, 1, 3⟩] : List Block).map Block.hash).Nodup ∧
        ([⟨1, 7, 2⟩, ⟨2, 1, 3⟩] : List Block) ≠ [] ∧
        ∃ b ∈ ([⟨1, 7, 2⟩, ⟨2, 1, 3⟩] : List Block),
          0 < cumWork [⟨1, 7, 2⟩, ⟨2, 1, 3⟩] b) ∧
      ∃ (best : Block) (most : Nat), best ∈ ([⟨1, 7, 2⟩, ⟨2, 1, 3⟩] : List Block) ∧
        (∀ garbage : Nat, ∃ cache,
          bestLoop [⟨1, 7, 2⟩, ⟨2, 1, 3⟩] [⟨1, 7, 2⟩, ⟨2, 1, 3⟩]
              ⟨0, 0, garbage⟩ 0 [] = some (best, most, cache) ∧
          findBestG garbage [⟨1, 7, 2⟩, ⟨2, 1, 3⟩] =
            some (chainOf [⟨1, 7, 2⟩, ⟨2, 1, 3⟩] best)) ∧
        most = ((chainOf [⟨1, 7, 2⟩, ⟨2, 1, 3⟩] best).map Block.bits).sum ∧
        ∀ t ∈ ([⟨1, 7, 2⟩, ⟨2, 1, 3⟩] : List Block),
          ((chainOf [⟨1, 7, 2⟩, ⟨2, 1, 3⟩] t).map Block.bits).sum ≤ most :=
  ⟨⟨by decide, by decide, by decide, by decide⟩,
    findBest_weight_optimal [⟨1, 7, 2⟩, ⟨2, 1, 3⟩] (by decide) (by decide)
      (by decide) (by decide)⟩

/-! ## Claim C4: the winner -/

/-- Counterexample to claim C4 as stated.  In a store whose only block has
weight `0`, every total work is `0`, the strict comparison `work > mostWork`
(with `mostWork` initialized to `0`) never fires, and the winner is the
default-constructed block — which is not a block of the store. -/
theorem selectWinner_counterexample :
    selectWinner [⟨5, 9, 0⟩] = some defaultBlock ∧
      defaultBlock ∉ ([⟨5, 9, 0⟩] : List Block) := by decide

/-- Claim C4, amended: provided some stored block has positive total work,
the winner is a stored block of maximal total accumulated work, and among
blocks sharing that maximal work the first in the store's iteration order
wins (every earlier block is strictly worse).  Without the positivity
proviso the winner can be the default-constructed block, which is outside
the store. -/
theorem selectWinner_first_max (store : List Block) (hA : Acyclic store)
    (hN : (store.map Block.hash).Nodup)
    (hpos : ∃ b ∈ store, 0 < cumWork store b) :
    ∃ best : Block, selectWinner store = some best ∧ best ∈ store ∧
      (∀ b ∈ store, cumWork store b ≤ cumWork store best) ∧
      ∃ pre suf, store = pre ++ best :: suf ∧
        ∀ x ∈ pre, cumWork store x < cumWork store best := by
  obtain ⟨cache2, hbl⟩ := bestLoop_eq_pickBest store hA hN store defaultBlock 0 []
    (fun x hx => hx) (by intro kv hkv; cases hkv)
  obtain ⟨b0, hb0, hb0pos⟩ := hpos
  have hle := pickBest_le store store defaultBlock 0
  have hpb2pos : 0 < (pickBest store store defaultBlock 0).2 :=
    lt_of_lt_of_le hb0pos (hle.2 b0 hb0)
  rcases pickBest_cases store store defaultBlock 0 with heq | ⟨hmem, hval, _⟩
  · rw [heq] at hpb2pos
    cases hpb2pos
  · have hfind : ∃ bstar, store.find?
        (fun x => decide ((pickBest store store defaultBlock 0).2 ≤
          cumWork store x)) = some bstar := by
      apply Option.isSome_iff_exists.mp
      rw [List.find?_isSome]
      exact ⟨(pickBest store store defaultBlock 0).1, hmem,
        decide_eq_true (le_of_eq hval)⟩
    obtain ⟨bstar, hbfind⟩ := hfind
    obtain ⟨pre, suf, hsplit, hpre⟩ := find?_decomp _ store bstar hbfind
    have hbstar_mem : bstar ∈ store := List.mem_of_find?_eq_some hbfind
    have hstar_ge : (pickBest store store defaultBlock 0).2 ≤ cumWork store bstar := by
      have := List.find?_some hbfind
      simpa using this
    have hstar_eq : cumWork store bstar = (pickBest store store defaultBlock 0).2 :=
      le_antisymm (hle.2 bstar hbstar_mem) hstar_ge
    have hprelt : ∀ x ∈ pre, cumWork store x < cumWork store bstar := by
      intro x hx
      have hxmem : x ∈ store := by
        rw [hsplit]
        exact List.mem_append.mpr (Or.inl hx)
      have hxle := hle.2 x hxmem
      have hxne := hpre x hx
      simp only [decide_eq_false_iff_not, Nat.not_le] at hxne
      omega
    have hsufle : ∀ x ∈ suf, cumWork store x ≤ cumWork store bstar := by
      intro x hx
      have hxmem : x ∈ store := by
        rw [hsplit]
        exact List.mem_append.mpr (Or.inr (List.mem_cons_of_mem bstar hx))
      rw [hstar_eq]
      exact hle.2 x hxmem
    have h0lt : (0 : Nat) < cumWork store bstar := by rw [hstar_eq]; exact hpb2pos
    have hpick : pickBest store store defaultBlock 0 =
        (bstar, cumWork store bstar) := by
      nth_rewrite 2 [hsplit]
      exact pickBest_first store bstar pre suf defaultBlock 0 hprelt h0lt hsufle
    have hsel : selectWinner store = some bstar := by
      unfold selectWinner
      rw [hbl, hpick]
    refine ⟨bstar, hsel, hbstar_mem, ?_, pre, suf, hsplit, hprelt⟩
    intro b hb
    rw [hstar_eq]
    exact hle.2 b hb

/-- Witness for claim C4 (amended): a two-block chain with positive
weights; the tip (second in iteration order) has the unique maximal work. -/
theorem selectWinner_first_max_witness :
    (Acyclic [⟨1, 9, 2⟩, ⟨2, 1, 3⟩] ∧
        (([⟨1, 9, 2⟩, ⟨2, 1, 3⟩] : List Block).map Block.hash).Nodup ∧
        ∃ b ∈ ([⟨1, 9, 2⟩, ⟨2, 1, 3⟩] : List Block),
          0 < cumWork [⟨1, 9, 2⟩, ⟨2, 1, 3⟩] b) ∧
      ∃ best : Block, selectWinner [⟨1, 9, 2⟩, ⟨2, 1, 3⟩] = some best ∧
        best ∈ ([⟨1, 9, 2⟩, ⟨2, 1, 3⟩] : List Block) ∧
        (∀ b ∈ ([⟨1, 9, 2⟩, ⟨2, 1, 3⟩] : List Block),
          cumWork [⟨1, 9, 2⟩, ⟨2, 1, 3⟩] b ≤ cumWork [⟨1, 9, 2⟩, ⟨2, 1, 3⟩] best) ∧
        ∃ pre suf, ([⟨1, 9, 2⟩, ⟨2, 1, 3⟩] : List Block) = pre ++ best :: suf ∧
          ∀ x ∈ pre, cumWork [⟨1, 9, 2⟩, ⟨2, 1, 3⟩] x <
            cumWork [⟨1, 9, 2⟩, ⟨2, 1, 3⟩] best :=
  ⟨⟨by decide, by decide, by decide⟩,
    selectWinner_first_max [⟨1, 9, 2⟩, ⟨2, 1, 3⟩] (by decide) (by decide)
      (by decide)⟩

/-! ## Claim C6: contiguity of the returned chain -/

theorem walk_chain (store : List Block) :
    ∀ (fuel : Nat) (b : Block), parentIter store (fuel + 1) b = none →
      List.Chain' (fun x y => parentOf store x = some y)
        (b :: ancestors store fuel b) := by
  intro fuel
  induction fuel with
  | zero =>
    intro b h
    rw [parentIter_one] at h
    rw [ancestors_parent_none store 0 b h]
    exact List.chain'_singleton b
  | succ f ih =>
    intro b h
    cases hp : parentOf store b with
    | none =>
      rw [ancestors_parent_none store _ b hp]
      exact List.chain'_singleton b
    | some p =>
      rw [ancestors_parent_some store f b p hp]
      have h' : parentIter store (f + 1) p = none := by
        have hstep : parentIter store (f + 1 + 1) b =
            (parentOf store b).bind (parentIter store (f + 1)) := rfl
        rw [hstep, hp, Option.some_bind] at h
        exact h
      exact List.chain'_cons.mpr ⟨hp, ih p h'⟩

theorem walk_getLast (store : List Block) :
    ∀ (fuel : Nat) (b : Block), parentIter store (fuel + 1) b = none →
      ∃ last, (b :: ancestors store fuel b).getLast? = some last ∧
        parentOf store last = none := by
  intro fuel
  induction fuel with
  | zero =>
    intro b h
    rw [parentIter_one] at h
    rw [ancestors_parent_none store 0 b h]
    exact ⟨b, rfl, h⟩
  | succ f ih =>
    intro b h
    cases hp : parentOf store b with
    | none =>
      rw [ancestors_parent_none store _ b hp]
      exact ⟨b, rfl, hp⟩
    | some p =>
      rw [ancestors_parent_some store f b p hp]
      have h' : parentIter store (f + 1) p = none := by
        have hstep : parentIter store (f + 1 + 1) b =
            (parentOf store b).bind (parentIter store (f + 1)) := rfl
        rw [hstep, hp, Option.some_bind] at h
        exact h
      rcases ih p h' with ⟨last, hlast, hnone⟩
      exact ⟨last, by rw [List.getLast?_cons_cons]; exact hlast, hnone⟩

/-- Claim C6.  On a non-empty acyclic store, `findBest` returns a chain that
is contiguous: its first (root) element's parent identity resolves to
nothing in the store, and every subsequent element's `prevBlockHash` is the
identity of the element immediately preceding it. -/
theorem findBest_contiguous (store : List Block) (hA : Acyclic store)
    (hne : store ≠ []) :
    ∃ (r : Block) (rest : List Block), findBest store = some (r :: rest) ∧
      findBlock store r.prevBlockHash = none ∧
      List.Chain' (fun a b => b.prevBlockHash = a.hash) (r :: rest) := by
  obtain ⟨out, hout⟩ := bestLoop_isSome store hA store defaultBlock 0 []
  have hfb : findBest store = some (chainOf store out.1) := by
    unfold findBest
    rw [hout]
  have hend := parentIter_length_eq_none store hA out.1
  have hchain := walk_chain store store.length out.1 hend
  obtain ⟨last, hlast, hlastnone⟩ := walk_getLast store store.length out.1 hend
  have hrevne : chainOf store out.1 ≠ [] := by
    unfold chainOf
    simp
  obtain ⟨r, rest, hr⟩ := List.exists_cons_of_ne_nil hrevne
  have hrhead : (chainOf store out.1).head? = some r := by
    rw [hr]
    rfl
  have hrlast : r = last := by
    have : (chainOf store out.1).head? =
        (out.1 :: ancestors store store.length out.1).getLast? :=
      List.head?_reverse _
    rw [hrhead, hlast] at this
    exact Option.some.inj this
  have hchain' : List.Chain' (fun a b => b.prevBlockHash = a.hash)
      (chainOf store out.1) := by
    unfold chainOf
    rw [List.chain'_reverse]
    refine List.Chain'.imp ?_ hchain
    intro x y hxy
    have := (findBlock_eq_some store x.prevBlockHash y hxy).1
    exact this.symm
  refine ⟨r, rest, by rw [hfb, hr], ?_, by rw [← hr]; exact hchain'⟩
  rw [hrlast]
  exact hlastnone

/-- Witness for claim C6: a two-block chain. -/
theorem findBest_contiguous_witness :
    (Acyclic [⟨1, 9, 1⟩, ⟨2, 1, 1⟩] ∧ ([⟨1, 9, 1⟩, ⟨2, 1, 1⟩] : List Block) ≠ []) ∧
      ∃ (r : Block) (rest : List Block),
        findBest [⟨1, 9, 1⟩, ⟨2, 1, 1⟩] = some (r :: rest) ∧
        findBlock [⟨1, 9, 1⟩, ⟨2, 1, 1⟩] r.prevBlockHash = none ∧
        List.Chain' (fun a b => b.prevBlockHash = a.hash) (r :: rest) :=
  ⟨⟨by decide, by decide⟩,
    findBest_contiguous [⟨1, 9, 1⟩, ⟨2, 1, 1⟩] (by decide) (by decide)⟩

/-! ## Claim C8: tips of a non-empty store -/

/-- Counterexample to claim C8 as stated.  A non-empty store may have no
tips at all when the parent references form a cycle: a single
self-referencing block is its own (stored) parent, so its identity lands in
the has-children set and `findChainTips` returns nothing. -/
theorem findChainTips_cycle_counterexample :
    findChainTips [⟨1, 1, 0⟩] = [] ∧ ([⟨1, 1, 0⟩] : List Block) ≠ [] := by
  decide

/-- Claim C8, amended: for every non-empty store with distinct identities
whose parent relation is acyclic, `findChainTips` returns at least one
block.  (The cyclic case fails, as the counterexample shows.)  Proof: were
there no tip, every stored block would have a stored child; iterating a
choice of child and applying the pigeonhole principle yields a stored block
that is its own transitive ancestor. -/
theorem findChainTips_nonempty (store : List Block) (hA : Acyclic store)
    (hN : (store.map Block.hash).Nodup) (hne : store ≠ []) :
    findChainTips store ≠ [] := by
  intro he
  have hchild : ∀ b ∈ store, ∃ c ∈ store, c.prevBlockHash = b.hash := by
    intro b hb
    have hnotmem : b ∉ findChainTips store := by
      rw [he]
      exact List.not_mem_nil b
    rw [findChainTips_mem_iff store b] at hnotmem
    push_neg at hnotmem
    rcases hnotmem hb with ⟨c, hc, hch, _⟩
    exact ⟨c, hc, hch⟩
  have hchild_spec : ∀ b ∈ store,
      (if h : ∃ c ∈ store, c.prevBlockHash = b.hash then h.choose
        else defaultBlock) ∈ store ∧
      (if h : ∃ c ∈ store, c.prevBlockHash = b.hash then h.choose
        else defaultBlock).prevBlockHash = b.hash := by
    intro b hb
    have h := hchild b hb
    rw [dif_pos h]
    exact h.choose_spec
  set child : Block → Block := fun b =>
    if h : ∃ c ∈ store, c.prevBlockHash = b.hash then h.choose
    else defaultBlock with hchilddef
  set f : Nat → Block := fun k => child^[k] (store.head hne) with hfdef
  have hfmem : ∀ k, f k ∈ store := by
    intro k
    induction k with
    | zero => exact List.head_mem hne
    | succ k ih =>
      have hstep : f (k + 1) = child (f k) := Function.iterate_succ_apply' child k _
      rw [hstep]
      exact (hchild_spec (f k) ih).1
  have hflink : ∀ k, parentOf store (f (k + 1)) = some (f k) := by
    intro k
    have hstep : f (k + 1) = child (f k) := Function.iterate_succ_apply' child k _
    unfold parentOf
    rw [hstep, (hchild_spec (f k) (hfmem k)).2]
    exact findBlock_of_nodup store hN (f k) (hfmem k)
  have hfiter : ∀ m k, m ≤ k → parentIter store m (f k) = some (f (k - m)) := by
    intro m
    induction m with
    | zero => intro k _; simp [parentIter]
    | succ m ih =>
      intro k hmk
      rw [parentIter_succ_last, ih k (by omega), Option.some_bind]
      have harith : k - m = (k - (m + 1)) + 1 := by omega
      rw [harith, hflink (k - (m + 1))]
  have hmaps : ∀ k ∈ Finset.range (store.length + 1), f k ∈ store.toFinset := by
    intro k _
    exact List.mem_toFinset.mpr (hfmem k)
  have hcard : store.toFinset.card < (Finset.range (store.length + 1)).card := by
    rw [Finset.card_range]
    exact Nat.lt_succ_of_le (List.toFinset_card_le store)
  rcases Finset.exists_ne_map_eq_of_card_lt_of_maps_to hcard hmaps with
    ⟨i, hi, j, hj, hij, hfij⟩
  rw [Finset.mem_range] at hi hj
  have hNpos : 0 < store.length := List.length_pos.mpr hne
  have key : ∀ i j : Nat, i < j → j ≤ store.length → f i = f j → False := by
    intro i j hlt hjle heq
    have hit : parentIter store (j - i) (f j) = some (f (j - (j - i))) :=
      hfiter (j - i) j (by omega)
    have harith : j - (j - i) = i := by omega
    rw [harith, heq] at hit
    have hsplit : j - i = (j - i - 1) + 1 := by omega
    rw [hsplit] at hit
    exact hA (f j) (hfmem j) (j - i - 1) (by omega) hit
  rcases Nat.lt_or_ge i j with hlt | hge
  · exact key i j hlt (by omega) hfij
  · exact key j i (by omega) (by omega) hfij.symm

/-- Witness for claim C8 (amended): a single root block has itself as the
only tip. -/
theorem findChainTips_nonempty_witness :
    (Acyclic [⟨3, 7, 1⟩] ∧ (([⟨3, 7, 1⟩] : List Block).map Block.hash).Nodup ∧
        ([⟨3, 7, 1⟩] : List Block) ≠ []) ∧
      findChainTips [⟨3, 7, 1⟩] ≠ [] :=
  ⟨⟨by decide, by decide, by decide⟩,
    findChainTips_nonempty [⟨3, 7, 1⟩] (by decide) (by decide) (by decide)⟩

end BestChain
